import Mathlib

/-!
Verification of the PDF toolkit (rules-manual / rate-pages parsers and the
agent query tools) against its natural-language specification.

Strings are modelled as `List Char`; Python's `str.lower` is modelled by
`Char.toLower` (both lower-case only ASCII letters on the data appearing in
this development), `in` by `containsSub`, `str.count` by `countOcc`,
`str.split()` by `splitWs`, `str.strip()` by `pyStrip`.  Python's stable
`list.sort` / `sorted` is modelled by `List.insertionSort`, which is stable.
-/

/-- Characters treated as whitespace by Python's `str.split()` / `str.strip()`. -/
def pySpace (c : Char) : Bool :=
  c = ' ' || c = '\t' || c = '\n' || c = '\r' || c = '\x0b' || c = '\x0c'

/-- Model of Python `str.lower()` (ASCII case folding). -/
def lowerStr (s : List Char) : List Char :=
  s.map Char.toLower

/-- `listStartsWith hay needle`: `hay` begins with `needle`. -/
def listStartsWith : List Char → List Char → Bool
  | _, [] => true
  | [], _ :: _ => false
  | a :: as, b :: bs => decide (a = b) && listStartsWith as bs

/-- Model of Python's `needle in hay` substring test. -/
def containsSub (hay needle : List Char) : Bool :=
  match hay with
  | [] => listStartsWith [] needle
  | c :: t => listStartsWith (c :: t) needle || containsSub t needle

/-- Auxiliary scan for `countOcc` (nonempty needle): counts non-overlapping
occurrences left to right, exactly as Python's `str.count` does.  The second
argument is the number of characters still to skip after a match (the match is
counted when it starts, then the rest of the needle's span is skipped, so the
next occurrence can only start after the previous one ends). -/
def countOccAux (needle : List Char) : List Char → Nat → Nat
  | [], _ => 0
  | c :: t, 0 =>
    if listStartsWith (c :: t) needle then
      countOccAux needle t (needle.length - 1) + 1
    else
      countOccAux needle t 0
  | _ :: t, k + 1 => countOccAux needle t k

/-- Model of Python `hay.count(needle)`; on the empty needle Python returns
`len(hay) + 1`. -/
def countOcc (hay needle : List Char) : Nat :=
  if needle.isEmpty then hay.length + 1 else countOccAux needle hay 0

/-- Auxiliary scan for `splitWs`: `acc` is the current word, reversed. -/
def splitWsAux : List Char → List Char → List (List Char)
  | acc, [] => if acc.isEmpty then [] else [acc.reverse]
  | acc, c :: rest =>
    if pySpace c then
      (if acc.isEmpty then [] else [acc.reverse]) ++ splitWsAux [] rest
    else
      splitWsAux (c :: acc) rest

/-- Model of Python `s.split()`: split on runs of whitespace, dropping empty
tokens. -/
def splitWs (s : List Char) : List (List Char) :=
  splitWsAux [] s

/-- Model of Python `s.strip()`: drop whitespace from both ends. -/
def pyStrip (s : List Char) : List Char :=
  ((s.dropWhile pySpace).reverse.dropWhile pySpace).reverse

/-- Model of Python `s.replace('\n', ' ')`. -/
def replNl (s : List Char) : List Char :=
  s.map (fun c => if c = '\n' then ' ' else c)

/-- Model of Python `s.replace('  ', ' ')`: one left-to-right pass replacing
each non-overlapping pair of spaces by a single space. -/
def replDouble : List Char → List Char
  | ' ' :: ' ' :: rest => ' ' :: replDouble rest
  | c :: rest => c :: replDouble rest
  | [] => []

/-- Join a list of strings with a separator (Python `sep.join(parts)`). -/
def joinSep (sep : List Char) : List (List Char) → List Char
  | [] => []
  | [x] => x
  | x :: y :: xs => x ++ sep ++ joinSep sep (y :: xs)

/-- Model of Python `str(cell)` on an optional string cell: `None` prints as
`"None"`. -/
def pyStr : Option (List Char) → List Char
  | none => ['N', 'o', 'n', 'e']
  | some s => s

/-- Numeric value of a list of decimal digits (Python `int` of the matched
digit run). -/
def digitsToNat (s : List Char) : Nat :=
  s.foldl (fun n c => 10 * n + (c.toNat - 48)) 0

/-! ## Data model: rule chunks (RulesManualParser output, fields used by the tools) -/

/-- A parsed rule section (`TextChunk` with its rule metadata): `content` is the
rule body, `rule_title` / `rule_section` / `part` / `part_name` are the
metadata entries the query tools read.  `part` and `part_name` are absent
(`none`) when the rule precedes any PART header. -/
structure RuleChunk where
  content : List Char
  rule_title : List Char
  rule_section : List Char
  part : Option (List Char)
  part_name : Option (List Char)
deriving DecidableEq

/-- A scored search hit: the Python code builds pairs `(score, chunk)` in corpus
order; `idx` records that corpus position explicitly. -/
structure ScoredChunk where
  score : Nat
  idx : Nat
  chunk : RuleChunk
deriving DecidableEq

/-- `PDFToolkit.search_rules` scoring of one chunk: +10 if the query is a
case-insensitive substring of the title, plus the number of non-overlapping
occurrences in the content when the query occurs there, plus 5 if the query is
a substring of the rule id. -/
def rule_score (q : List Char) (c : RuleChunk) : Nat :=
  (if containsSub (lowerStr c.rule_title) (lowerStr q) then 10 else 0) +
  (if containsSub (lowerStr c.content) (lowerStr q) then
    countOcc (lowerStr c.content) (lowerStr q) else 0) +
  (if containsSub (lowerStr c.rule_section) (lowerStr q) then 5 else 0)

/-- The scored list built by the `search_rules` loop: chunks with score 0 are
skipped, the rest keep corpus order (recorded in `idx`). -/
def scored_chunks (q : List Char) (chunks : List RuleChunk) : List ScoredChunk :=
  chunks.enum.filterMap (fun p =>
    if 0 < rule_score q p.2 then some ⟨rule_score q p.2, p.1, p.2⟩ else none)

/-- Descending-score comparison used by `scored_chunks.sort(reverse=True,
key=lambda x: x[0])`; the sort key looks only at the score. -/
def score_desc (a b : ScoredChunk) : Prop := b.score ≤ a.score

instance : DecidableRel score_desc := fun a b => Nat.decLe b.score a.score

instance : IsTotal ScoredChunk score_desc := ⟨fun a b => Nat.le_total b.score a.score⟩

instance : IsTrans ScoredChunk score_desc := ⟨fun _ _ _ h1 h2 => Nat.le_trans h2 h1⟩

/-- `PDFToolkit.search_rules`, modelled up to the ranked list of scored chunks
(the code then renders this list as a display string).  `part_filter` follows
Python truthiness: an empty-string filter is no filter.  Python's stable
`list.sort` is modelled by the stable `List.insertionSort`. -/
def search_rules (chunks : List RuleChunk) (q : List Char)
    (part_filter : Option (List Char)) (top_k : Nat) : List ScoredChunk :=
  let cs := match part_filter with
    | none => chunks
    | some f => if f.isEmpty then chunks else
        chunks.filter (fun c => decide (c.part = some f))
  (List.insertionSort score_desc (scored_chunks q cs)).take top_k

/-! ## find_part_by_description -/

/-- The `parts` dict of `find_part_by_description`: first-seen name wins per
PART letter, insertion order kept; falsy (absent or empty) part letters or
names are skipped. -/
def parts_of (chunks : List RuleChunk) : List (List Char × List Char) :=
  chunks.foldl (fun acc c =>
    match c.part, c.part_name with
    | some p, some n =>
      if !p.isEmpty && !n.isEmpty && !(acc.any (fun e => decide (e.1 = p))) then
        acc ++ [(p, n)]
      else acc
    | _, _ => acc) []

/-- `find_part_by_description` scoring: +100 if the description is a
case-insensitive substring of the part name, +10 per whitespace token of the
description longer than 2 characters occurring in the part name. -/
def part_score (desc pname : List Char) : Nat :=
  (if containsSub (lowerStr pname) (lowerStr desc) then 100 else 0) +
  10 * ((splitWs (lowerStr desc)).filter
    (fun w => decide (2 < w.length) && containsSub (lowerStr pname) w)).length

/-- A scored `(part, partName)` candidate with its insertion-order position. -/
structure ScoredPart where
  score : Nat
  idx : Nat
  part : List Char
  pname : List Char
deriving DecidableEq

/-- Descending-score comparison for `scored_parts.sort(reverse=True,
key=lambda x: x[0])`. -/
def pscore_desc (a b : ScoredPart) : Prop := b.score ≤ a.score

instance : DecidableRel pscore_desc := fun a b => Nat.decLe b.score a.score

instance : IsTotal ScoredPart pscore_desc := ⟨fun a b => Nat.le_total b.score a.score⟩

instance : IsTrans ScoredPart pscore_desc := ⟨fun _ _ _ h1 h2 => Nat.le_trans h2 h1⟩

/-- Lexicographic string comparison by character code (Python `str` order,
restricted to the comparisons `sorted(parts.items())` performs). -/
def strLeB : List Char → List Char → Bool
  | [], _ => true
  | _ :: _, [] => false
  | a :: as, b :: bs => if a = b then strLeB as bs else decide (a < b)

/-- The scored candidate list built by the `find_part_by_description` loop:
parts scoring 0 are skipped, the rest keep insertion order (recorded in
`idx`). -/
def scored_parts (desc : List Char) (parts : List (List Char × List Char)) :
    List ScoredPart :=
  parts.enum.filterMap (fun p =>
    if 0 < part_score desc p.2.2 then
      some ⟨part_score desc p.2.2, p.1, p.2.1, p.2.2⟩
    else none)

/-- Python tuple comparison for `sorted(parts.items())`. -/
def pairLe (x y : List Char × List Char) : Prop :=
  (if x.1 = y.1 then strLeB x.2 y.2 else strLeB x.1 y.1) = true

instance : DecidableRel pairLe := fun x y => by
  unfold pairLe; infer_instance

/-- The result variants of `find_part_by_description` (the code renders each as
a message string). -/
inductive PartResult
  | noData
  | noPartInfo
  | allParts (ps : List (List Char × List Char))
  | best (part pname : List Char) (alts : List (List Char × List Char))
deriving DecidableEq

/-- `PDFToolkit.find_part_by_description`: score each distinct PART, return the
best (ties broken by insertion order, stable sort); when nothing scores above
0, fall back to listing all PARTs sorted by letter. -/
def find_part_by_description (chunks : List RuleChunk) (desc : List Char) : PartResult :=
  if chunks.isEmpty then .noData
  else if (parts_of chunks).isEmpty then .noPartInfo
  else
    match List.insertionSort pscore_desc (scored_parts desc (parts_of chunks)) with
    | [] => .allParts (List.insertionSort pairLe (parts_of chunks))
    | e :: rest => .best e.part e.pname ((rest.take 3).map (fun x => (x.part, x.pname)))

/-! ## list_all_rules -/

/-- The part filter of `list_all_rules`: skip a rule unless its id starts with
`<part_filter>-`; an absent or empty (falsy) filter passes everything. -/
def pass_part_filter (pf : Option (List Char)) (sec : List Char) : Bool :=
  match pf with
  | none => true
  | some f => if f.isEmpty then true else listStartsWith sec (f ++ ['-'])

/-- The loop of `list_all_rules` building the `seen_rules` dict: `acc` is the
association list built so far (insertion order); a chunk passing the part
filter adds its `(rule_section, rule_title)` pair when id and title are truthy
and the id is not yet a key. -/
def seen_rules_go (pf : Option (List Char)) (acc : List (List Char × List Char)) :
    List RuleChunk → List (List Char × List Char)
  | [] => acc
  | c :: cs =>
    seen_rules_go pf
      (if pass_part_filter pf c.rule_section then
        if !c.rule_section.isEmpty && !c.rule_title.isEmpty &&
            !(acc.any (fun e => decide (e.1 = c.rule_section))) then
          acc ++ [(c.rule_section, c.rule_title)]
        else acc
      else acc) cs

/-- The `seen_rules` dict of `list_all_rules`: rule id mapped to the first-seen
title, in insertion order; falsy ids or titles are skipped. -/
def seen_rules (chunks : List RuleChunk) (pf : Option (List Char)) :
    List (List Char × List Char) :=
  seen_rules_go pf [] chunks

/-- `extract_rule_num`: the first integer found after a hyphen in a rule id
(regex `-(\d+)`, leftmost match, greedy digits); `999` when there is none. -/
def extract_rule_num : List Char → Nat
  | [] => 999
  | c :: rest =>
    if decide (c = '-') && (match rest with | d :: _ => d.isDigit | [] => false) then
      digitsToNat (rest.takeWhile Char.isDigit)
    else extract_rule_num rest

/-- Ascending comparison by `extract_rule_num` of the rule id. -/
def rule_num_le (a b : List Char × List Char) : Prop :=
  extract_rule_num a.1 ≤ extract_rule_num b.1

instance : DecidableRel rule_num_le :=
  fun a b => Nat.decLe (extract_rule_num a.1) (extract_rule_num b.1)

instance : IsTotal (List Char × List Char) rule_num_le :=
  ⟨fun a b => Nat.le_total (extract_rule_num a.1) (extract_rule_num b.1)⟩

instance : IsTrans (List Char × List Char) rule_num_le :=
  ⟨fun _ _ _ h1 h2 => Nat.le_trans h1 h2⟩

/-- `PDFToolkit.list_all_rules`, modelled up to the ordered `(id, title)` list
(the code renders the titles as a bullet list).  Python sorts the dict's keys
stably by `extract_rule_num` and reads the titles back off the dict; since ids
in `seen_rules` are distinct, this equals stably sorting the pairs by id key. -/
def list_all_rules (chunks : List RuleChunk) (pf : Option (List Char)) :
    List (List Char × List Char) :=
  List.insertionSort rule_num_le (seen_rules chunks pf)

/-! ## Rule title cleaning, step (a) -/

/-- Whether the step-(a) regex `([a-z])([A-Z]{2,}[A-Z/].*?)$` of
`RulesManualParser._clean_rule_title` matches at the head of this suffix:
a lowercase letter, two uppercase letters, then an uppercase letter or `/`
(backtracking of `[A-Z]{2,}` followed by `[A-Z/]` reduces to exactly this),
then anything up to the end of the string.  Titles are single-line regex
captures, so the lazy `.*?` reaching `$` imposes no further condition. -/
def step_a_here : List Char → Bool
  | c :: d :: e :: f :: _ =>
    c.isLower && d.isUpper && e.isUpper && (f.isUpper || decide (f = '/'))
  | _ => false

/-- Step (a) of `_clean_rule_title`: `re.sub` finds the leftmost position where
the pattern matches (the match necessarily extends to the end of the string)
and replaces it by its first capture group, i.e. truncates the title just
after that lowercase letter. -/
def clean_rule_title_step_a : List Char → List Char
  | [] => []
  | c :: rest =>
    if step_a_here (c :: rest) then [c] else c :: clean_rule_title_step_a rest

/-- Index of the leftmost step-(a) match, if any. -/
def first_step_a : List Char → Option Nat
  | [] => none
  | c :: rest =>
    if step_a_here (c :: rest) then some 0 else (first_step_a rest).map (· + 1)

/-! ## Data model: tables (RatePagesParser output) -/

/-- A raw or merged table (`TableData`).  Cells and headers are optional
strings (`None` from the PDF extractor is `none`).  The Python `metadata` dict
is flattened into `table_index` (always present), and `merged_from_pages` /
`total_pages` (present only on merged tables). -/
structure TableData where
  data : List (List (Option (List Char)))
  headers : List (Option (List Char))
  exhibit_name : List Char
  page_number : Nat
  page_text : List Char
  source_document : List Char
  table_id : List Char
  table_index : Nat
  merged_from_pages : Option (List Nat)
  total_pages : Option Nat
deriving DecidableEq

/-- The header normalization inside `RatePagesParser._headers_match`:
`str(h).replace('\n', ' ').replace('  ', ' ').strip().lower()`, with `None`
becoming the empty string. -/
def normalize_header : Option (List Char) → List Char
  | none => []
  | some h => lowerStr (pyStrip (replDouble (replNl h)))

/-- `RatePagesParser._headers_match`: same length and element-wise equal
normalized headers. -/
def headers_match (h1 h2 : List (Option (List Char))) : Bool :=
  decide (h1.length = h2.length) &&
  decide (h1.map normalize_header = h2.map normalize_header)

/-- The `should_merge` condition of `_merge_multi_page_tables`: same exhibit
name, page numbers within 2 of each other, matching normalized headers. -/
def should_merge (prev curr : TableData) : Bool :=
  decide (curr.exhibit_name = prev.exhibit_name) &&
  decide (((curr.page_number : Int) - (prev.page_number : Int)).natAbs ≤ 2) &&
  headers_match curr.headers prev.headers

/-- The page-break separator used when concatenating page text of a merged
group. -/
def page_break_marker : List Char := "\n---PAGE BREAK---\n".toList

/-- `RatePagesParser._merge_table_group` on the group `base :: rest`: a
singleton group passes through unchanged; otherwise rows are concatenated in
group order, headers / exhibit name / page number / source / id come from the
first fragment, page texts are joined with the page-break marker (empty ones
skipped), and the metadata records the contributing pages and group size. -/
def merge_table_group (base : TableData) (rest : List TableData) : TableData :=
  match rest with
  | [] => base
  | _ :: _ =>
    let group := base :: rest
    { data := group.foldr (fun t acc => t.data ++ acc) []
      headers := base.headers
      exhibit_name := base.exhibit_name
      page_number := base.page_number
      page_text := joinSep page_break_marker
        (group.filterMap (fun t => if t.page_text.isEmpty then none else some t.page_text))
      source_document := base.source_document
      table_id := base.table_id
      table_index := base.table_index
      merged_from_pages := some (group.map (fun t => t.page_number))
      total_pages := some group.length }

/-- Last element of the nonempty group `x :: ys` (Python `current_group[-1]`). -/
def last_of (x : TableData) : List TableData → TableData
  | [] => x
  | y :: ys => last_of y ys

/-- The walk of `_merge_multi_page_tables`: the current open group is
`base :: mid` (in page order); a fragment joins it iff `should_merge` holds
against the group's most recently added fragment, otherwise the group is
closed and a new one starts. -/
def merge_go (base : TableData) (mid : List TableData) :
    List TableData → List TableData
  | [] => [merge_table_group base mid]
  | c :: cs =>
    if should_merge (last_of base mid) c then merge_go base (mid ++ [c]) cs
    else merge_table_group base mid :: merge_go c [] cs

/-- Ascending page-number comparison for `sorted(tables, key=lambda t:
t.page_number)`. -/
def page_le (a b : TableData) : Prop := a.page_number ≤ b.page_number

instance : DecidableRel page_le := fun a b => Nat.decLe a.page_number b.page_number

instance : IsTotal TableData page_le := ⟨fun a b => Nat.le_total a.page_number b.page_number⟩

instance : IsTrans TableData page_le := ⟨fun _ _ _ h1 h2 => Nat.le_trans h1 h2⟩

/-- `RatePagesParser._merge_multi_page_tables`: stable sort by page number,
then walk merging consecutive fragments of the same logical table. -/
def merge_multi_page_tables (tables : List TableData) : List TableData :=
  match List.insertionSort page_le tables with
  | [] => []
  | t :: ts => merge_go t [] ts

/-! ## Query tools over tables -/

/-- The exhibit-match test shared by `extract_table`, `find_value_in_table` and
`extract_table_by_exhibit`: the query is a case-insensitive substring of the
exhibit name. -/
def exhibit_matches (q : List Char) (t : TableData) : Bool :=
  containsSub (lowerStr t.exhibit_name) (lowerStr q)

/-- The matching-table list built by `PDFToolkit.extract_table` (and by
`RatePagesParser.extract_table_by_exhibit`). -/
def extract_table_matches (tables : List TableData) (q : List Char) : List TableData :=
  tables.filter (exhibit_matches q)

/-- The first-match loop of `find_value_in_table` (`break` after the first
matching table). -/
def find_matching_table : List TableData → List Char → Option TableData
  | [], _ => none
  | t :: ts, q => if exhibit_matches q t then some t else find_matching_table ts q

/-- Outcome of resolving a criterion's column name against the headers:
`raisedAttr` models the uncaught `AttributeError` from `header.lower()` on a
`None` header. -/
inductive ColRes
  | raisedAttr
  | notFound
  | found (i : Nat)
deriving DecidableEq

/-- The header scan of `find_value_in_table`: first header containing the
column name case-insensitively wins. -/
def find_col_idx : List (Option (List Char)) → List Char → Nat → ColRes
  | [], _, _ => .notFound
  | none :: _, _, _ => .raisedAttr
  | some h :: rest, col, i =>
    if containsSub (lowerStr h) (lowerStr col) then .found i
    else find_col_idx rest col (i + 1)

/-- Outcome of checking one row against the criteria: `raised` models an
uncaught exception (`IndexError` from `row[col_idx]` on a short row, or the
`AttributeError` above). -/
inductive RowCheck
  | raised
  | colMissing (c : List Char)
  | matched (b : Bool)
deriving DecidableEq

/-- The inner criteria loop of `find_value_in_table` on one row.  Python
evaluates `row[col_idx]` before the containment test, so a resolved index past
the end of the row raises. -/
def check_row (headers row : List (Option (List Char))) :
    List (List Char × List Char) → RowCheck
  | [] => .matched true
  | (col, v) :: rest =>
    match find_col_idx headers col 0 with
    | .raisedAttr => .raised
    | .notFound => .colMissing col
    | .found i =>
      match row[i]? with
      | none => .raised
      | some cell =>
        if containsSub (lowerStr (pyStr cell)) (lowerStr v) then check_row headers row rest
        else .matched false

/-- The result variants of `find_value_in_table` (each rendered as a message
string by the code); `raised` models an uncaught exception escaping the
call. -/
inductive FindResult
  | noTables
  | exhibitNotFound
  | columnNotFound (c : List Char)
  | matchingRow (row : List (Option (List Char)))
  | columnValue (v : List Char)
  | noMatchingRow
  | raised
deriving DecidableEq

/-- The row loop of `find_value_in_table`: first row satisfying every
criterion wins; on a match the optional return column is resolved the same way
(and `row[ret_col_idx]` can again raise). -/
def rows_scan (headers : List (Option (List Char)))
    (crit : List (List Char × List Char)) (rc : Option (List Char)) :
    List (List (Option (List Char))) → FindResult
  | [] => .noMatchingRow
  | row :: rest =>
    match check_row headers row crit with
    | .raised => .raised
    | .colMissing c => .columnNotFound c
    | .matched false => rows_scan headers crit rc rest
    | .matched true =>
      match rc with
      | none => .matchingRow row
      | some col =>
        match find_col_idx headers col 0 with
        | .raisedAttr => .raised
        | .notFound => .columnNotFound col
        | .found i =>
          match row[i]? with
          | none => .raised
          | some cell => .columnValue (pyStr cell)

/-- `PDFToolkit.find_value_in_table`: only the first table whose exhibit name
contains the query is searched. -/
def find_value_in_table (tables : List TableData) (q : List Char)
    (crit : List (List Char × List Char)) (rc : Option (List Char)) : FindResult :=
  if tables.isEmpty then .noTables
  else
    match find_matching_table tables q with
    | none => .exhibitNotFound
    | some t => rows_scan t.headers crit rc t.data

/-! ## Spec-side definitions used for comparison -/

/-- Collapse every run of spaces to a single space; auxiliary for the
specification's header normalization. -/
def collapseAux : Bool → List Char → List Char
  | _, [] => []
  | prevSpace, c :: rest =>
    if c = ' ' then
      (if prevSpace then [] else [' ']) ++ collapseAux true rest
    else c :: collapseAux false rest

/-- Collapse every run of repeated spaces to a single space. -/
def collapse_runs (s : List Char) : List Char := collapseAux false s

/-- The header normalization as worded by the specification: line breaks
replaced by spaces, every run of repeated spaces collapsed to a single space,
trimmed, lower-cased.  Spec-side definition, for comparison with
`normalize_header`. -/
def spec_normalize_header : Option (List Char) → List Char
  | none => []
  | some h => lowerStr (pyStrip (collapse_runs (replNl h)))

/-- A raw (unmerged) table as produced per page by `RatePagesParser.parse`:
only the fields relevant to the claims vary; page text, source and id are
irrelevant to the merge conditions and query tools under study. -/
def mkTable (name : List Char) (headers : List (Option (List Char)))
    (rows : List (List (Option (List Char)))) (page : Nat) : TableData :=
  { data := rows
    headers := headers
    exhibit_name := name
    page_number := page
    page_text := []
    source_document := []
    table_id := []
    table_index := 0
    merged_from_pages := none
    total_pages := none }

/-! ## Helper lemmas -/

theorem listStartsWith_iff (n : List Char) : ∀ h : List Char,
    listStartsWith h n = true ↔ ∃ r, h = n ++ r := by
  induction n with
  | nil =>
    intro h
    simp [listStartsWith]
  | cons b bs ih =>
    intro h
    cases h with
    | nil =>
      simp [listStartsWith]
    | cons a as =>
      simp only [listStartsWith, Bool.and_eq_true, decide_eq_true_eq, ih as]
      constructor
      · rintro ⟨rfl, r, rfl⟩
        exact ⟨r, rfl⟩
      · rintro ⟨r, hr⟩
        rw [List.cons_append] at hr
        injection hr with h1 h2
        exact ⟨h1, r, h2⟩

theorem containsSub_iff (n : List Char) : ∀ h : List Char,
    containsSub h n = true ↔ ∃ p q, h = p ++ n ++ q := by
  intro h
  induction h with
  | nil =>
    simp only [containsSub, listStartsWith_iff]
    constructor
    · rintro ⟨r, hr⟩
      exact ⟨[], r, by simpa using hr⟩
    · rintro ⟨p, q, hpq⟩
      have h0 := List.append_eq_nil.mp hpq.symm
      have h1 := List.append_eq_nil.mp h0.1
      exact ⟨[], by simp [h1.2]⟩
  | cons c t ih =>
    simp only [containsSub, Bool.or_eq_true, listStartsWith_iff, ih]
    constructor
    · rintro (⟨r, hr⟩ | ⟨p, q, hpq⟩)
      · exact ⟨[], r, by simpa using hr⟩
      · exact ⟨c :: p, q, by simp [hpq]⟩
    · rintro ⟨p, q, hpq⟩
      cases p with
      | nil =>
        exact Or.inl ⟨q, by simpa using hpq⟩
      | cons c2 p2 =>
        rw [List.cons_append, List.cons_append] at hpq
        injection hpq with h1 h2
        exact Or.inr ⟨p2, q, h2⟩

theorem containsSub_self (s : List Char) : containsSub s s = true :=
  (containsSub_iff s s).mpr ⟨[], [], by simp⟩

theorem containsSub_trans {a b c : List Char} (h1 : containsSub b a = true)
    (h2 : containsSub c b = true) : containsSub c a = true := by
  obtain ⟨p, q, rfl⟩ := (containsSub_iff a b).mp h1
  obtain ⟨r, s, rfl⟩ := (containsSub_iff (p ++ a ++ q) c).mp h2
  exact (containsSub_iff a _).mpr ⟨r ++ p, q ++ s, by simp⟩

theorem containsSub_append_pre (pre t w : List Char) (h : containsSub t w = true) :
    containsSub (pre ++ t) w = true := by
  obtain ⟨p, q, rfl⟩ := (containsSub_iff w t).mp h
  exact (containsSub_iff w _).mpr ⟨pre ++ p, q, by simp⟩

theorem splitWsAux_sub : ∀ (s acc w : List Char),
    w ∈ splitWsAux acc s → containsSub (acc.reverse ++ s) w = true := by
  intro s
  induction s with
  | nil =>
    intro acc w hw
    simp only [splitWsAux] at hw
    split at hw
    · simp at hw
    · simp only [List.mem_singleton] at hw
      subst hw
      simpa using containsSub_self acc.reverse
  | cons c rest ih =>
    intro acc w hw
    simp only [splitWsAux] at hw
    split at hw
    · rw [List.mem_append] at hw
      rcases hw with hw | hw
      · split at hw
        · simp at hw
        · simp only [List.mem_singleton] at hw
          subst hw
          exact (containsSub_iff _ _).mpr ⟨[], c :: rest, by simp⟩
      · have h := ih [] w hw
        simp only [List.reverse_nil, List.nil_append] at h
        have : containsSub (c :: rest) w = true := containsSub_append_pre [c] rest w h
        exact containsSub_append_pre acc.reverse _ w this
    · have h := ih (c :: acc) w hw
      simpa [List.append_assoc] using h

theorem splitWs_sub (s w : List Char) (hw : w ∈ splitWs s) : containsSub s w = true := by
  have h := splitWsAux_sub s [] w hw
  simpa using h

theorem filter_length_mono {α : Type} (p q : α → Bool) : ∀ l : List α,
    (∀ x ∈ l, p x = true → q x = true) →
    (l.filter p).length ≤ (l.filter q).length := by
  intro l
  induction l with
  | nil => intro _; simp
  | cons a t ih =>
    intro h
    have ht := ih (fun x hx => h x (List.mem_cons_of_mem a hx))
    by_cases hp : p a = true
    · rw [List.filter_cons_of_pos hp, List.filter_cons_of_pos (h a (List.mem_cons_self a t) hp)]
      simpa using ht
    · rw [List.filter_cons_of_neg (by simpa using hp)]
      cases hq : q a
      · rw [List.filter_cons_of_neg (by simp [hq])]
        exact ht
      · rw [List.filter_cons_of_pos hq]
        exact Nat.le_succ_of_le ht

theorem should_merge_iff (prev curr : TableData) :
    should_merge prev curr = true ↔
      (curr.exhibit_name = prev.exhibit_name ∧
       ((curr.page_number : Int) - (prev.page_number : Int)).natAbs ≤ 2 ∧
       curr.headers.map normalize_header = prev.headers.map normalize_header) := by
  simp only [should_merge, headers_match, Bool.and_eq_true, decide_eq_true_eq]
  constructor
  · rintro ⟨⟨h1, h2⟩, h3, h4⟩
    exact ⟨h1, h2, h4⟩
  · rintro ⟨h1, h2, h4⟩
    refine ⟨⟨h1, h2⟩, ?_, h4⟩
    have h5 := congrArg List.length h4
    simpa using h5

theorem merge_pair_eq (t1 t2 : TableData) (hle : page_le t1 t2)
    (hm : should_merge t1 t2 = true) :
    merge_multi_page_tables [t1, t2] = [merge_table_group t1 [t2]] := by
  have hs : List.insertionSort page_le [t1, t2] = [t1, t2] := by
    simp [List.insertionSort, List.orderedInsert, if_pos hle]
  unfold merge_multi_page_tables
  rw [hs]
  simp [merge_go, last_of, hm]

/-- C1: a fragment joins the open group iff its exhibit name equals that of the
group's most recently added fragment, its page number is within 2 of that
fragment's, and its normalized header list is equal to the group's; merging
two single-page fragments with identical exhibit name, identical normalized
headers and pages N and N+1 yields one merged table whose row count is the sum
of the two row counts and whose contributing-page list is [N, N+1]. -/
theorem merge_join_iff_and_consecutive_pages :
    (∀ prev curr : TableData, should_merge prev curr = true ↔
      (curr.exhibit_name = prev.exhibit_name ∧
       ((curr.page_number : Int) - (prev.page_number : Int)).natAbs ≤ 2 ∧
       curr.headers.map normalize_header = prev.headers.map normalize_header)) ∧
    (∀ t1 t2 : TableData, t2.exhibit_name = t1.exhibit_name →
      t2.page_number = t1.page_number + 1 →
      t2.headers.map normalize_header = t1.headers.map normalize_header →
      ∃ m, merge_multi_page_tables [t1, t2] = [m] ∧
        m.data.length = t1.data.length + t2.data.length ∧
        m.merged_from_pages = some [t1.page_number, t1.page_number + 1]) := by
  constructor
  · exact should_merge_iff
  · intro t1 t2 hname hpage hhd
    have hle : page_le t1 t2 := by
      unfold page_le
      omega
    have habs : ((t2.page_number : Int) - (t1.page_number : Int)).natAbs ≤ 2 := by
      rw [hpage]
      push_cast
      omega
    have hm : should_merge t1 t2 = true := (should_merge_iff t1 t2).mpr ⟨hname, habs, hhd⟩
    refine ⟨merge_table_group t1 [t2], merge_pair_eq t1 t2 hle hm, ?_, ?_⟩
    · simp [merge_table_group]
    · simp [merge_table_group, hpage]

/-- Witness for C1: two concrete single-page fragments of "Exhibit 5" on pages
3 and 4 with equal normalized headers merge into one table with 3 rows and
contributing pages [3, 4]. -/
theorem merge_join_iff_witness :
    ∃ m, merge_multi_page_tables
        [mkTable "Exhibit 5".toList [some "H".toList] [[some "1".toList], [some "2".toList]] 3,
         mkTable "Exhibit 5".toList [some "H".toList] [[some "3".toList]] 4] = [m] ∧
      m.data.length = 3 ∧ m.merged_from_pages = some [3, 4] := by
  obtain ⟨m, h1, h2, h3⟩ := merge_join_iff_and_consecutive_pages.2
    (mkTable "Exhibit 5".toList [some "H".toList] [[some "1".toList], [some "2".toList]] 3)
    (mkTable "Exhibit 5".toList [some "H".toList] [[some "3".toList]] 4)
    (by decide) (by decide) (by decide)
  refine ⟨m, h1, ?_, ?_⟩
  · rw [h2]
    decide
  · rw [h3]
    decide

/-- C10: two raw tables from the same page (page distance 0) with equal
exhibit name and equal normalized headers, adjacent after the stable sort by
page number, merge into a single table whose rows are the concatenation of
both tables' rows. -/
theorem merge_same_page_tables :
    ∀ t1 t2 : TableData, t2.exhibit_name = t1.exhibit_name →
      t2.page_number = t1.page_number →
      t2.headers.map normalize_header = t1.headers.map normalize_header →
      merge_multi_page_tables [t1, t2] = [merge_table_group t1 [t2]] ∧
      (merge_table_group t1 [t2]).data = t1.data ++ t2.data := by
  intro t1 t2 hname hpage hhd
  have hle : page_le t1 t2 := by
    unfold page_le
    omega
  have habs : ((t2.page_number : Int) - (t1.page_number : Int)).natAbs ≤ 2 := by
    rw [hpage]
    simp
  have hm : should_merge t1 t2 = true := (should_merge_iff t1 t2).mpr ⟨hname, habs, hhd⟩
  refine ⟨merge_pair_eq t1 t2 hle hm, ?_⟩
  simp [merge_table_group]

/-- Witness for C10: two concrete tables extracted from the same page 7 of
"Exhibit 2" merge, with the rows concatenated. -/
theorem merge_same_page_witness :
    merge_multi_page_tables
        [mkTable "Exhibit 2".toList [some "H".toList] [[some "1".toList]] 7,
         mkTable "Exhibit 2".toList [some "H".toList] [[some "2".toList]] 7] =
      [merge_table_group
        (mkTable "Exhibit 2".toList [some "H".toList] [[some "1".toList]] 7)
        [mkTable "Exhibit 2".toList [some "H".toList] [[some "2".toList]] 7]] ∧
    (merge_table_group
        (mkTable "Exhibit 2".toList [some "H".toList] [[some "1".toList]] 7)
        [mkTable "Exhibit 2".toList [some "H".toList] [[some "2".toList]] 7]).data =
      [[some "1".toList], [some "2".toList]] := by
  obtain ⟨h1, h2⟩ := merge_same_page_tables
    (mkTable "Exhibit 2".toList [some "H".toList] [[some "1".toList]] 7)
    (mkTable "Exhibit 2".toList [some "H".toList] [[some "2".toList]] 7)
    (by decide) (by decide) (by decide)
  refine ⟨h1, ?_⟩
  rw [h2]
  decide

/-- C8 counterexample: two headers equal under the specification's
run-collapsing normalization (three spaces versus one), of equal length, which
`_headers_match` nevertheless rejects, because the code's
`replace('  ', ' ')` is a single pass and leaves two of the three spaces. -/
theorem headers_match_three_spaces_cex :
    spec_normalize_header (some "a   b".toList) = spec_normalize_header (some "a b".toList) ∧
    headers_match [some "a   b".toList] [some "a b".toList] = false := by
  decide

/-- C8 (amended): `_headers_match` holds exactly when the two header lists are
element-wise identical after the code's normalization (line breaks to spaces,
one left-to-right pass replacing each space pair by one space, trim,
lower-case); in particular headers differing only in two spaces versus one
still match. -/
theorem headers_match_iff_normalized_eq :
    (∀ h1 h2 : List (Option (List Char)), headers_match h1 h2 = true ↔
      h1.map normalize_header = h2.map normalize_header) ∧
    headers_match [some "a  b".toList] [some "a b".toList] = true := by
  constructor
  · intro h1 h2
    simp only [headers_match, Bool.and_eq_true, decide_eq_true_eq]
    constructor
    · rintro ⟨_, h⟩
      exact h
    · intro h
      refine ⟨?_, h⟩
      have h5 := congrArg List.length h
      simpa using h5
  · decide

/-- C7 counterexample: "aBCd" has a lowercase letter immediately followed by
two uppercase letters and then text to the end of the string, yet step (a)
leaves it unchanged (the regex `([a-z])([A-Z]{2,}[A-Z/].*?)$` needs a third
uppercase letter or a slash after the two uppercase letters). -/
theorem clean_step_a_two_uppercase_cex :
    clean_rule_title_step_a "aBCd".toList = "aBCd".toList ∧
    "aBCd".toList ≠ "a".toList ∧
    Char.isLower 'a' = true ∧ Char.isUpper 'B' = true ∧ Char.isUpper 'C' = true := by
  decide

/-- C7 (amended): step (a) truncates the title just after the leftmost
lowercase letter that is immediately followed by two uppercase letters and a
further uppercase letter or slash (then anything to end-of-string); when no
position matches, the title is unchanged. -/
theorem clean_step_a_char : ∀ s : List Char,
    (first_step_a s = none → clean_rule_title_step_a s = s) ∧
    (∀ j, first_step_a s = some j →
      clean_rule_title_step_a s = s.take (j + 1) ∧
      step_a_here (s.drop j) = true ∧
      (∀ i, i < j → step_a_here (s.drop i) = false)) ∧
    (first_step_a s = none → ∀ i, step_a_here (s.drop i) = false) := by
  intro s
  induction s with
  | nil =>
    refine ⟨fun _ => rfl, ?_, ?_⟩
    · intro j hj
      simp [first_step_a] at hj
    · intro _ i
      simp [step_a_here]
  | cons c rest ih =>
    by_cases hs : step_a_here (c :: rest) = true
    · refine ⟨?_, ?_, ?_⟩
      · intro h
        simp [first_step_a, hs] at h
      · intro j hj
        simp only [first_step_a, if_pos hs] at hj
        injection hj with hj
        subst hj
        refine ⟨?_, by simpa using hs, ?_⟩
        · simp [clean_rule_title_step_a, hs]
        · intro i hi
          omega
      · intro h
        simp [first_step_a, hs] at h
    · have hsf : step_a_here (c :: rest) = false := by
        simpa using hs
      cases hfr : first_step_a rest with
      | none =>
        refine ⟨?_, ?_, ?_⟩
        · intro _
          simp only [clean_rule_title_step_a, if_neg hs]
          rw [ih.1 hfr]
        · intro j hj
          simp only [first_step_a, if_neg hs, hfr] at hj
          simp at hj
        · intro _ i
          cases i with
          | zero => simpa using hsf
          | succ i2 =>
            have h2 := ih.2.2 hfr i2
            simpa using h2
      | some j0 =>
        refine ⟨?_, ?_, ?_⟩
        · intro h
          simp only [first_step_a, if_neg hs, hfr] at h
          simp at h
        · intro j hj
          simp only [first_step_a, if_neg hs, hfr, Option.map_some'] at hj
          injection hj with hj
          subst hj
          obtain ⟨hc1, hc2, hc3⟩ := ih.2.1 j0 hfr
          refine ⟨?_, by simpa using hc2, ?_⟩
          · simp only [clean_rule_title_step_a, if_neg hs, hc1, List.take_succ_cons]
          · intro i hi
            cases i with
            | zero => simpa using hsf
            | succ i2 =>
              have h3 := hc3 i2 (by omega)
              simpa using h3
        · intro h
          simp only [first_step_a, if_neg hs, hfr] at h
          simp at h

/-- Witness for C7's amended statement: "xABC" matches at position 0 and is
truncated to "x". -/
theorem clean_step_a_witness :
    clean_rule_title_step_a "xABC".toList = "x".toList := by
  have h := ((clean_step_a_char "xABC".toList).2.1 0 (by decide)).1
  rw [h]
  decide

theorem find_matching_first (q : List Char) : ∀ (ts1 : List TableData) (t : TableData)
    (ts2 : List TableData), (∀ u ∈ ts1, exhibit_matches q u = false) →
    exhibit_matches q t = true →
    find_matching_table (ts1 ++ t :: ts2) q = some t := by
  intro ts1
  induction ts1 with
  | nil =>
    intro t ts2 _ ht
    simp [find_matching_table, ht]
  | cons u us ih =>
    intro t ts2 hu ht
    have h0 : exhibit_matches q u = false := hu u (List.mem_cons_self u us)
    simp only [List.cons_append, find_matching_table, h0]
    simp only [Bool.false_eq_true, if_false]
    exact ih t ts2 (fun v hv => hu v (List.mem_cons_of_mem u hv)) ht

theorem rows_scan_noMatch_iff (headers : List (Option (List Char)))
    (crit : List (List Char × List Char)) (rc : Option (List Char)) :
    ∀ rows, rows_scan headers crit rc rows = .noMatchingRow ↔
      ∀ row ∈ rows, check_row headers row crit = .matched false := by
  intro rows
  induction rows with
  | nil => simp [rows_scan]
  | cons r rs ih =>
    simp only [rows_scan]
    cases hc : check_row headers r crit with
    | raised =>
      constructor
      · intro h
        simp at h
      · intro hall
        have h2 := hall r (List.mem_cons_self r rs)
        rw [hc] at h2
        simp at h2
    | colMissing c =>
      constructor
      · intro h
        simp at h
      · intro hall
        have h2 := hall r (List.mem_cons_self r rs)
        rw [hc] at h2
        simp at h2
    | matched b =>
      cases b with
      | false =>
        constructor
        · intro h row hrow
          rcases List.mem_cons.mp hrow with rfl | hrow2
          · exact hc
          · exact ih.mp h row hrow2
        · intro hall
          exact ih.mpr (fun row hr => hall row (List.mem_cons_of_mem r hr))
      | true =>
        constructor
        · intro h
          exfalso
          rcases rc with _ | col
          · simp at h
          · rcases hf : find_col_idx headers col 0 with _ | _ | i
            · simp [hf] at h
            · simp [hf] at h
            · rcases hg : r[i]? with _ | cell
              · simp [hf, hg] at h
              · simp [hf, hg] at h
        · intro hall
          have h2 := hall r (List.mem_cons_self r rs)
          rw [hc] at h2
          simp at h2

/-- C2 (amended): `find_value_in_table` searches only the first table (in
corpus order) whose exhibit name contains the query case-insensitively — the
result is `rows_scan` over that table alone, independent of any later
candidate exhibits — and the "no matching row" result is returned exactly when
no row of that first table satisfies all criteria. -/
theorem find_value_first_exhibit_only :
    (∀ (ts1 : List TableData) (t : TableData) (ts2 : List TableData) (q : List Char)
        (crit : List (List Char × List Char)) (rc : Option (List Char)),
      (∀ u ∈ ts1, exhibit_matches q u = false) → exhibit_matches q t = true →
      find_value_in_table (ts1 ++ t :: ts2) q crit rc = rows_scan t.headers crit rc t.data) ∧
    (∀ (headers : List (Option (List Char))) (crit : List (List Char × List Char))
        (rc : Option (List Char)) (rows : List (List (Option (List Char)))),
      rows_scan headers crit rc rows = .noMatchingRow ↔
        ∀ row ∈ rows, check_row headers row crit = .matched false) := by
  constructor
  · intro ts1 t ts2 q crit rc h1 h2
    have hne : (ts1 ++ t :: ts2).isEmpty = false := by
      simp [List.isEmpty_iff]
    simp [find_value_in_table, hne, find_matching_first q ts1 t ts2 h1 h2]
  · exact rows_scan_noMatch_iff

/-- C2 counterexample: with two exhibits both matching the query "Exhibit 1",
a row satisfying the criteria in the second is never reached — the code
returns "no matching row" after scanning only the first. -/
theorem find_value_skips_later_exhibits_cex :
    find_value_in_table
        [mkTable "Exhibit 1A".toList [some "Code".toList] [[some "X".toList]] 1,
         mkTable "Exhibit 1B".toList [some "Code".toList] [[some "Y".toList]] 2]
        "Exhibit 1".toList [("Code".toList, "Y".toList)] none = .noMatchingRow ∧
    exhibit_matches "Exhibit 1".toList
      (mkTable "Exhibit 1B".toList [some "Code".toList] [[some "Y".toList]] 2) = true ∧
    check_row [some "Code".toList] [some "Y".toList] [("Code".toList, "Y".toList)] =
      .matched true := by
  decide

/-- Witness for C2's amended statement, at a one-table corpus. -/
theorem find_value_first_exhibit_witness :
    find_value_in_table
        [mkTable "Exhibit 9".toList [some "Code".toList] [[some "Y".toList]] 1]
        "Exhibit 9".toList [("Code".toList, "Y".toList)] none =
      rows_scan [some "Code".toList] [("Code".toList, "Y".toList)] none
        [[some "Y".toList]] := by
  have h := find_value_first_exhibit_only.1 []
    (mkTable "Exhibit 9".toList [some "Code".toList] [[some "Y".toList]] 1) []
    "Exhibit 9".toList [("Code".toList, "Y".toList)] none (by simp) (by decide)
  simpa [mkTable] using h

/-- C3: on a row shorter than the header list, a criterion resolving to a
column index past the row's end makes `find_value_in_table` raise (Python
`IndexError` from `row[col_idx]`), instead of returning a result or an
explicit not-found value. -/
theorem find_value_short_row_raises :
    find_value_in_table
        [mkTable "Exhibit 1".toList [some "A".toList, some "B".toList]
          [[some "x".toList]] 1]
        "Exhibit 1".toList [("B".toList, "y".toList)] none = .raised := by
  decide

/-- C9: exhibit lookup is pure case-insensitive substring containment with no
word boundary — `extract_table` keeps exactly the tables whose exhibit name
contains the query, `find_value_in_table` searches whichever such table comes
first in corpus order, and the query "Exhibit 1" also matches exhibits named
"Exhibit 10", "Exhibit 11" and "Exhibit 1A". -/
theorem exhibit_lookup_substring :
    (∀ (tables : List TableData) (q : List Char) (t : TableData),
      t ∈ extract_table_matches tables q ↔
        t ∈ tables ∧ containsSub (lowerStr t.exhibit_name) (lowerStr q) = true) ∧
    (∀ (ts1 : List TableData) (t : TableData) (ts2 : List TableData) (q : List Char),
      (∀ u ∈ ts1, exhibit_matches q u = false) → exhibit_matches q t = true →
      find_matching_table (ts1 ++ t :: ts2) q = some t) ∧
    (exhibit_matches "Exhibit 1".toList (mkTable "Exhibit 10".toList [] [] 1) = true ∧
     exhibit_matches "Exhibit 1".toList (mkTable "Exhibit 11".toList [] [] 1) = true ∧
     exhibit_matches "Exhibit 1".toList (mkTable "Exhibit 1A".toList [] [] 1) = true) := by
  refine ⟨?_, ?_, ?_⟩
  · intro tables q t
    simp [extract_table_matches, List.mem_filter, exhibit_matches]
  · exact fun ts1 t ts2 q h1 h2 => find_matching_first q ts1 t ts2 h1 h2
  · decide

/-- Witness for C9: with "Exhibit 1A" first and "Exhibit 10" second, the query
"Exhibit 1" selects "Exhibit 1A" for the value lookup. -/
theorem exhibit_lookup_substring_witness :
    find_matching_table
        [mkTable "Exhibit 1A".toList [] [] 1, mkTable "Exhibit 10".toList [] [] 2]
        "Exhibit 1".toList = some (mkTable "Exhibit 1A".toList [] [] 1) := by
  have h := exhibit_lookup_substring.2.1 [] (mkTable "Exhibit 1A".toList [] [] 1)
    [mkTable "Exhibit 10".toList [] [] 2] "Exhibit 1".toList (by simp) (by decide)
  simpa using h

theorem scored_chunks_mem (q : List Char) (chunks : List RuleChunk) (e : ScoredChunk) :
    e ∈ scored_chunks q chunks ↔
      chunks[e.idx]? = some e.chunk ∧ e.score = rule_score q e.chunk ∧ 0 < e.score := by
  obtain ⟨s, i, c⟩ := e
  simp only [scored_chunks, List.mem_filterMap]
  constructor
  · rintro ⟨⟨i2, c2⟩, hmem, hf⟩
    split_ifs at hf with h0
    injection hf with hf
    cases hf
    exact ⟨List.mem_enum_iff_getElem?.mp hmem, rfl, h0⟩
  · rintro ⟨hget, hs, h0⟩
    refine ⟨(i, c), List.mem_enum_iff_getElem?.mpr hget, ?_⟩
    have h1 : 0 < rule_score q c := hs ▸ h0
    simp only [h1, if_pos]
    rw [hs]

/-- C4: `search_rules` returns the top K, by descending score, of the scored
chunks; the scored list holds exactly the chunks of positive score (each
scored by the +10 title / +occurrences content / +5 rule-id formula of
`rule_score`), in corpus order; the sort is stable, so chunks of equal score
stay in corpus order; and a chunk whose title contains the query strictly
outranks a chunk that merely mentions the query once in its body. -/
theorem search_rules_ranking (chunks : List RuleChunk) (q : List Char) (k : Nat) :
    search_rules chunks q none k
        = (List.insertionSort score_desc (scored_chunks q chunks)).take k ∧
    (List.insertionSort score_desc (scored_chunks q chunks)).Perm (scored_chunks q chunks) ∧
    (List.insertionSort score_desc (scored_chunks q chunks)).Sorted score_desc ∧
    (∀ a b : ScoredChunk, List.Sublist [a, b] (scored_chunks q chunks) → a.score = b.score →
      List.Sublist [a, b] (List.insertionSort score_desc (scored_chunks q chunks))) ∧
    (∀ e : ScoredChunk, e ∈ scored_chunks q chunks ↔
      chunks[e.idx]? = some e.chunk ∧ e.score = rule_score q e.chunk ∧ 0 < e.score) ∧
    (∀ c1 c2 : RuleChunk, containsSub (lowerStr c1.rule_title) (lowerStr q) = true →
      rule_score q c2 = 1 → rule_score q c2 < rule_score q c1) := by
  refine ⟨rfl, List.perm_insertionSort score_desc _, List.sorted_insertionSort score_desc _,
    ?_, fun e => scored_chunks_mem q chunks e, ?_⟩
  · intro a b hsub heq
    exact List.pair_sublist_insertionSort (Nat.le_of_eq heq.symm) hsub
  · intro c1 c2 ht h1
    rw [h1]
    have h10 : 10 ≤ rule_score q c1 := by
      unfold rule_score
      rw [if_pos ht]
      omega
    omega

/-- Witness for C4: on the query "ab", a chunk whose title contains "ab"
strictly outranks a chunk whose body mentions "ab" once. -/
theorem search_rules_ranking_witness :
    rule_score "ab".toList ⟨"xaby".toList, "t".toList, "r2".toList, none, none⟩ <
      rule_score "ab".toList ⟨"zzz".toList, "habz".toList, "r1".toList, none, none⟩ :=
  (search_rules_ranking [] "ab".toList 0).2.2.2.2.2
    ⟨"zzz".toList, "habz".toList, "r1".toList, none, none⟩
    ⟨"xaby".toList, "t".toList, "r2".toList, none, none⟩ (by decide) (by decide)

theorem scored_parts_mem (desc : List Char) (parts : List (List Char × List Char))
    (e : ScoredPart) :
    e ∈ scored_parts desc parts ↔
      parts[e.idx]? = some (e.part, e.pname) ∧
        e.score = part_score desc e.pname ∧ 0 < e.score := by
  obtain ⟨s, i, pl, pn⟩ := e
  simp only [scored_parts, List.mem_filterMap]
  constructor
  · rintro ⟨⟨i2, p2⟩, hmem, hf⟩
    split_ifs at hf with h0
    injection hf with hf
    cases hf
    exact ⟨List.mem_enum_iff_getElem?.mp hmem, rfl, h0⟩
  · rintro ⟨hget, hs, h0⟩
    refine ⟨(i, (pl, pn)), List.mem_enum_iff_getElem?.mpr hget, ?_⟩
    have h1 : 0 < part_score desc pn := hs ▸ h0
    simp only [h1, if_pos]
    rw [hs]

theorem part_score_of_contains (desc pname : List Char)
    (h : containsSub (lowerStr pname) (lowerStr desc) = true) :
    part_score desc pname =
      100 + 10 * ((splitWs (lowerStr desc)).filter
        (fun w => decide (2 < w.length))).length := by
  unfold part_score
  rw [if_pos h]
  congr 2
  apply congrArg List.length
  apply List.filter_congr
  intro w hw
  have hsub := splitWs_sub _ w hw
  have hcont : containsSub (lowerStr pname) w = true := containsSub_trans hsub h
  simp [hcont]

theorem part_score_le_of_not_contains (desc pname : List Char)
    (h : containsSub (lowerStr pname) (lowerStr desc) = false) :
    part_score desc pname ≤
      10 * ((splitWs (lowerStr desc)).filter (fun w => decide (2 < w.length))).length := by
  unfold part_score
  rw [if_neg (by simp [h])]
  simp only [Nat.zero_add]
  apply Nat.mul_le_mul_left
  apply filter_length_mono
  intro w _ hpw
  rw [Bool.and_eq_true] at hpw
  exact hpw.1

/-- C5 (amended): `find_part_by_description` scores each PART as +100 for a
case-insensitive substring match of the description plus +10 per long-enough
token, and falls back to listing all PARTs when nothing scores above 0; when
the description is a substring of some PART's name (in particular when it
equals a `partName` present in the corpus), the best match is a PART whose
name contains the description (score at least 100) — but not necessarily that
exact PART. -/
theorem find_part_best_match (chunks : List RuleChunk) (desc : List Char) :
    ((parts_of chunks ≠ [] ∧ ∀ p ∈ parts_of chunks, part_score desc p.2 = 0) →
      ∃ l, find_part_by_description chunks desc = .allParts l ∧
        l.Perm (parts_of chunks)) ∧
    (∀ p ∈ parts_of chunks, containsSub (lowerStr p.2) (lowerStr desc) = true →
      ∃ part pname alts, find_part_by_description chunks desc = .best part pname alts ∧
        containsSub (lowerStr pname) (lowerStr desc) = true ∧
        (part, pname) ∈ parts_of chunks ∧ 100 ≤ part_score desc pname) ∧
    (∀ e : ScoredPart, e ∈ scored_parts desc (parts_of chunks) ↔
      (parts_of chunks)[e.idx]? = some (e.part, e.pname) ∧
        e.score = part_score desc e.pname ∧ 0 < e.score) := by
  refine ⟨?_, ?_, fun e => scored_parts_mem desc (parts_of chunks) e⟩
  · rintro ⟨hne, hz⟩
    have hchunks : chunks ≠ [] := by
      intro h
      subst h
      exact hne rfl
    have hcie : chunks.isEmpty = false := by
      simpa [List.isEmpty_iff] using hchunks
    have hpie : (parts_of chunks).isEmpty = false := by
      simpa [List.isEmpty_iff] using hne
    have hscored : scored_parts desc (parts_of chunks) = [] := by
      simp only [scored_parts, List.filterMap_eq_nil_iff]
      rintro ⟨i, p⟩ hmem
      have hp : p ∈ parts_of chunks :=
        List.getElem?_mem (List.mem_enum_iff_getElem?.mp hmem)
      have h0 := hz p hp
      simp [h0]
    refine ⟨List.insertionSort pairLe (parts_of chunks), ?_,
      List.perm_insertionSort pairLe _⟩
    simp [find_part_by_description, hcie, hpie, hscored]
  · intro p hp hc
    obtain ⟨i, hi⟩ := List.mem_iff_getElem?.mp hp
    have hchunks : chunks ≠ [] := by
      intro h
      rw [h] at hp
      simp [parts_of] at hp
    have hcie : chunks.isEmpty = false := by
      simpa [List.isEmpty_iff] using hchunks
    have hpne : parts_of chunks ≠ [] := List.ne_nil_of_mem hp
    have hpie : (parts_of chunks).isEmpty = false := by
      simpa [List.isEmpty_iff] using hpne
    have h100 : 100 ≤ part_score desc p.2 := by
      rw [part_score_of_contains desc p.2 hc]
      omega
    have hep : (⟨part_score desc p.2, i, p.1, p.2⟩ : ScoredPart) ∈
        scored_parts desc (parts_of chunks) := by
      apply (scored_parts_mem _ _ _).mpr
      refine ⟨by simpa using hi, rfl, ?_⟩
      show 0 < part_score desc p.2
      omega
    have hsne : List.insertionSort pscore_desc (scored_parts desc (parts_of chunks)) ≠ [] := by
      apply List.ne_nil_of_mem (a := (⟨part_score desc p.2, i, p.1, p.2⟩ : ScoredPart))
      exact (List.mem_insertionSort _).mpr hep
    obtain ⟨e, rest, hsort⟩ : ∃ e rest,
        List.insertionSort pscore_desc (scored_parts desc (parts_of chunks)) = e :: rest := by
      cases hs2 : List.insertionSort pscore_desc (scored_parts desc (parts_of chunks)) with
      | nil => exact absurd hs2 hsne
      | cons e rest => exact ⟨e, rest, rfl⟩
    have hemem : e ∈ scored_parts desc (parts_of chunks) := by
      apply (List.mem_insertionSort pscore_desc).mp
      rw [hsort]
      exact List.mem_cons_self e rest
    obtain ⟨hegt, hesc, hepos⟩ := (scored_parts_mem _ _ _).mp hemem
    have hepmem : (⟨part_score desc p.2, i, p.1, p.2⟩ : ScoredPart) ∈ e :: rest := by
      rw [← hsort]
      exact (List.mem_insertionSort _).mpr hep
    have hmax : part_score desc p.2 ≤ e.score := by
      rcases List.mem_cons.mp hepmem with heq | hrest
      · rw [← heq]
      · have hsorted := List.sorted_insertionSort pscore_desc
          (scored_parts desc (parts_of chunks))
        rw [hsort] at hsorted
        exact (List.sorted_cons.mp hsorted).1 _ hrest
    have hcont : containsSub (lowerStr e.pname) (lowerStr desc) = true := by
      by_contra hnc
      have hfalse : containsSub (lowerStr e.pname) (lowerStr desc) = false := by
        simpa using hnc
      have hub := part_score_le_of_not_contains desc e.pname hfalse
      have hlb := part_score_of_contains desc p.2 hc
      rw [hesc] at hmax
      omega
    refine ⟨e.part, e.pname, (rest.take 3).map (fun x => (x.part, x.pname)), ?_, hcont, ?_, ?_⟩
    · simp [find_part_by_description, hcie, hpie, hsort]
    · exact List.getElem?_mem hegt
    · have h2 := Nat.le_trans h100 hmax
      rw [hesc] at h2
      exact h2

/-- Witness for C5's amended statement: a one-PART corpus where the
description equals the part name. -/
theorem find_part_best_match_witness :
    ∃ part pname alts,
      find_part_by_description
          [⟨"c".toList, "t".toList, "A-1".toList, some "A".toList,
            some "RATING PLAN".toList⟩]
          "RATING PLAN".toList = .best part pname alts ∧
        containsSub (lowerStr pname) (lowerStr "RATING PLAN".toList) = true ∧
        (part, pname) ∈ parts_of
          [⟨"c".toList, "t".toList, "A-1".toList, some "A".toList,
            some "RATING PLAN".toList⟩] ∧
        100 ≤ part_score "RATING PLAN".toList pname :=
  (find_part_best_match _ _).2.1 ("A".toList, "RATING PLAN".toList)
    (by decide) (by decide)

/-- C5 counterexample: the description "RATING PLAN" equals PART B's name
exactly, yet PART A ("RATING PLAN EXTRA", seen earlier, same score 120) is
returned as the best match — so applying the operation to a `partName` in the
corpus does not always return that PART. -/
theorem find_part_exact_name_cex :
    ("B".toList, "RATING PLAN".toList) ∈ parts_of
      [⟨[], "t".toList, "x".toList, some "A".toList, some "RATING PLAN EXTRA".toList⟩,
       ⟨[], "t".toList, "x".toList, some "B".toList, some "RATING PLAN".toList⟩] ∧
    find_part_by_description
        [⟨[], "t".toList, "x".toList, some "A".toList, some "RATING PLAN EXTRA".toList⟩,
         ⟨[], "t".toList, "x".toList, some "B".toList, some "RATING PLAN".toList⟩]
        "RATING PLAN".toList =
      .best "A".toList "RATING PLAN EXTRA".toList
        [("B".toList, "RATING PLAN".toList)] := by
  decide

theorem seen_rules_go_first (pf : Option (List Char)) : ∀ (cs : List RuleChunk)
    (acc : List (List Char × List Char)) (p : List Char × List Char),
    p ∈ seen_rules_go pf acc cs →
    p ∈ acc ∨
    ∃ pre c post, cs = pre ++ c :: post ∧
      pass_part_filter pf c.rule_section = true ∧
      c.rule_section.isEmpty = false ∧ c.rule_title.isEmpty = false ∧
      c.rule_section = p.1 ∧ c.rule_title = p.2 ∧
      acc.any (fun e => decide (e.1 = p.1)) = false ∧
      (∀ c2 ∈ pre, pass_part_filter pf c2.rule_section = true →
        c2.rule_section.isEmpty = false → c2.rule_title.isEmpty = false →
        c2.rule_section ≠ p.1) := by
  intro cs
  induction cs with
  | nil =>
    intro acc p hp
    exact Or.inl hp
  | cons c rest ih =>
    intro acc p hp
    simp only [seen_rules_go] at hp
    by_cases h1 : pass_part_filter pf c.rule_section = true
    · rw [if_pos h1] at hp
      by_cases h2 : (!c.rule_section.isEmpty && !c.rule_title.isEmpty &&
          !(acc.any (fun e => decide (e.1 = c.rule_section)))) = true
      · rw [if_pos h2] at hp
        rw [Bool.and_eq_true, Bool.and_eq_true] at h2
        rcases ih _ p hp with hl | ⟨pre, c2, post, hcs, hpass, hsec, htit, hs, ht, hany, hpre⟩
        · rcases List.mem_append.mp hl with hacc | hnew
          · exact Or.inl hacc
          · simp only [List.mem_singleton] at hnew
            subst hnew
            refine Or.inr ⟨[], c, rest, rfl, h1, ?_, ?_, rfl, rfl, ?_, ?_⟩
            · have h3 := h2.1.1
              rw [Bool.not_eq_true'] at h3
              exact h3
            · have h3 := h2.1.2
              rw [Bool.not_eq_true'] at h3
              exact h3
            · have h3 := h2.2
              rw [Bool.not_eq_true'] at h3
              exact h3
            · intro c3 hc3
              simp at hc3
        · refine Or.inr ⟨c :: pre, c2, post, by rw [hcs]; rfl, hpass, hsec, htit, hs, ht, ?_, ?_⟩
          · rw [List.any_append] at hany
            exact (Bool.or_eq_false_iff.mp hany).1
          · intro c3 hc3 hp3 hs3 ht3
            rcases List.mem_cons.mp hc3 with rfl | hc3r
            · intro hsecp
              rw [List.any_append] at hany
              have h4 := (Bool.or_eq_false_iff.mp hany).2
              simp [hsecp] at h4
            · exact hpre c3 hc3r hp3 hs3 ht3
      · rw [if_neg h2] at hp
        rcases ih acc p hp with hl | ⟨pre, c2, post, hcs, hpass, hsec, htit, hs, ht, hany, hpre⟩
        · exact Or.inl hl
        · refine Or.inr ⟨c :: pre, c2, post, by rw [hcs]; rfl, hpass, hsec, htit, hs, ht, hany, ?_⟩
          intro c3 hc3 hp3 hs3 ht3
          rcases List.mem_cons.mp hc3 with heq | hc3r
          · rw [heq] at hs3 ht3
            rw [heq]
            intro hsecp
            have hany2 : acc.any (fun e => decide (e.1 = c.rule_section)) = true := by
              by_contra hany3
              have hany4 : acc.any (fun e => decide (e.1 = c.rule_section)) = false :=
                Bool.eq_false_iff.mpr hany3
              apply h2
              rw [hs3, ht3, hany4]
              rfl
            have h5 : acc.any (fun e => decide (e.1 = p.1)) = true := by
              rw [← hsecp]
              exact hany2
            rw [h5] at hany
            exact Bool.noConfusion hany
          · exact hpre c3 hc3r hp3 hs3 ht3
    · rw [if_neg h1] at hp
      rcases ih acc p hp with hl | ⟨pre, c2, post, hcs, hpass, hsec, htit, hs, ht, hany, hpre⟩
      · exact Or.inl hl
      · refine Or.inr ⟨c :: pre, c2, post, by rw [hcs]; rfl, hpass, hsec, htit, hs, ht, hany, ?_⟩
        intro c3 hc3 hp3 hs3 ht3
        rcases List.mem_cons.mp hc3 with rfl | hc3r
        · exact absurd hp3 h1
        · exact hpre c3 hc3r hp3 hs3 ht3

theorem seen_rules_go_keys (pf : Option (List Char)) : ∀ (cs : List RuleChunk)
    (acc : List (List Char × List Char)),
    acc.Pairwise (fun a b => a.1 ≠ b.1) →
    (seen_rules_go pf acc cs).Pairwise (fun a b => a.1 ≠ b.1) := by
  intro cs
  induction cs with
  | nil =>
    intro acc h
    exact h
  | cons c rest ih =>
    intro acc h
    simp only [seen_rules_go]
    apply ih
    split_ifs with h1 h2
    · apply List.pairwise_append.mpr
      refine ⟨h, List.pairwise_singleton _ _, ?_⟩
      intro a ha b hb
      simp only [List.mem_singleton] at hb
      subst hb
      rw [Bool.and_eq_true, Bool.and_eq_true] at h2
      have h3 := h2.2
      rw [Bool.not_eq_true'] at h3
      intro heq
      have h4 : acc.any (fun e => decide (e.1 = c.rule_section)) = true :=
        List.any_eq_true.mpr ⟨a, ha, by simp [heq]⟩
      rw [h4] at h3
      exact Bool.noConfusion h3
    · exact h
    · exact h

/-- C6 (amended): with a (truthy) part filter, `list_all_rules` returns only
pairs whose rule id starts with `<filter>-`; the output is a permutation of
the deduplicated first-seen `(id, title)` dict (keys pairwise distinct, each
entry coming from the first passing chunk with that id), sorted ascending by
the first integer after a hyphen in the id — with ids lacking a parseable
number keyed by the sentinel 999, so they sort after ids with numbers below
999 but not after ids with larger numbers. -/
theorem list_rules_filtered_sorted (chunks : List RuleChunk) (f : List Char)
    (pf : Option (List Char)) :
    (f.isEmpty = false → ∀ p ∈ list_all_rules chunks (some f),
      listStartsWith p.1 (f ++ ['-']) = true) ∧
    (list_all_rules chunks pf).Perm (seen_rules chunks pf) ∧
    (seen_rules chunks pf).Pairwise (fun a b => a.1 ≠ b.1) ∧
    (list_all_rules chunks pf).Sorted rule_num_le ∧
    (∀ p ∈ seen_rules chunks pf, ∃ pre c post, chunks = pre ++ c :: post ∧
      pass_part_filter pf c.rule_section = true ∧
      c.rule_section.isEmpty = false ∧ c.rule_title.isEmpty = false ∧
      c.rule_section = p.1 ∧ c.rule_title = p.2 ∧
      (∀ c2 ∈ pre, pass_part_filter pf c2.rule_section = true →
        c2.rule_section.isEmpty = false → c2.rule_title.isEmpty = false →
        c2.rule_section ≠ p.1)) := by
  refine ⟨?_, List.perm_insertionSort rule_num_le _,
    seen_rules_go_keys pf chunks [] List.Pairwise.nil,
    List.sorted_insertionSort rule_num_le _, ?_⟩
  · intro hf p hp
    have hseen : p ∈ seen_rules chunks (some f) := by
      unfold list_all_rules at hp
      exact (List.mem_insertionSort rule_num_le).mp hp
    rcases seen_rules_go_first (some f) chunks [] p hseen with hl |
      ⟨pre, c, post, hcs, hpass, hsec, htit, hs, ht, hany, hpre⟩
    · simp at hl
    · rw [← hs]
      simp only [pass_part_filter, hf] at hpass
      simpa using hpass
  · intro p hp
    rcases seen_rules_go_first pf chunks [] p hp with hl |
      ⟨pre, c, post, hcs, hpass, hsec, htit, hs, ht, hany, hpre⟩
    · simp at hl
    · exact ⟨pre, c, post, hcs, hpass, hsec, htit, hs, ht, hpre⟩

/-- C6 counterexample: "C-x" has no parseable number (sentinel 999) yet sorts
before "C-1000", whose number is 1000 — an id lacking a number does not sort
after every id that has one. -/
theorem list_rules_sentinel_cex :
    list_all_rules
        [⟨[], "T1".toList, "C-1000".toList, none, none⟩,
         ⟨[], "T2".toList, "C-x".toList, none, none⟩] (some "C".toList) =
      [("C-x".toList, "T2".toList), ("C-1000".toList, "T1".toList)] ∧
    extract_rule_num "C-x".toList = 999 ∧
    extract_rule_num "C-1000".toList = 1000 := by
  decide

/-- Witness for C6's amended statement: in a one-rule corpus filtered by "C",
the returned id "C-1" indeed starts with "C-". -/
theorem list_rules_filtered_witness :
    listStartsWith "C-1".toList ("C".toList ++ ['-']) = true := by
  have h := (list_rules_filtered_sorted
    [⟨[], "T".toList, "C-1".toList, none, none⟩] "C".toList (some "C".toList)).1
  exact h (by decide) ("C-1".toList, "T".toList) (by decide)


/-- Witness for C8's amended statement: headers "A\nB" and "a b" normalize
identically under the code's normalization, so they match. -/
theorem headers_match_iff_witness :
    headers_match [some "A\nB".toList] [some "a b".toList] = true :=
  (headers_match_iff_normalized_eq.1 [some "A\nB".toList] [some "a b".toList]).mpr
    (by decide)
